import Mathlib

/-!
Shallow embedding of the flask-social-scheduler application (`src/app.py`)
together with proofs about its post-scheduling behaviour.

The embedding models:
* a `Post` row of the SQLAlchemy model,
* the APScheduler job store as a list of `Job` entries (the scheduler itself
  is an external collaborator; its `add_job`/`remove_job`/firing contract is
  modelled from the spec, §4.1),
* the socket notifications as an append-only list of `Event`s,
* the uploaded files as a list of file names,
and each route handler / the startup reconciliation loop as a state
transformer over `St`.
-/

namespace SocialScheduler

/-- Wall-clock timestamp (in minutes) with an optional fixed timezone offset
(in minutes), mirroring a Python `datetime` that is either naive
(`tz = none`) or aware (`tz = some offset`). -/
structure DT where
  naive : Int
  tz : Option Int
deriving DecidableEq

/-- The fixed IST offset (+05:30) used throughout `app.py`, in minutes. -/
def istOffset : Int := 330

/-- The normalization in the startup loop: a naive datetime is reinterpreted
in IST (`run_time.replace(tzinfo=IST)`); an aware one is kept as is. -/
def DT.normIST (t : DT) : DT :=
  if t.tz = none then { t with tz := some istOffset } else t

/-- The UTC instant denoted by an aware datetime: wall clock minus offset.
Used wherever the code compares two aware datetimes. -/
def DT.instant (t : DT) : Int := t.naive - t.tz.getD 0

/-- A row of the `Post` model in `app.py`. -/
structure Post where
  id : Nat
  title : String
  content : String
  platform : String
  scheduled_time : DT
  status : String
  image_filename : Option String
deriving DecidableEq

/-- A live entry of the delayed task scheduler: the APScheduler job id, the
run date, and the single `post_id` argument bound to `publish_post`. -/
structure Job where
  jid : String
  run_date : DT
  arg : Nat
deriving DecidableEq

/-- A `status_update` notification emitted through the socket. -/
structure Event where
  post_id : Nat
  status : String
deriving DecidableEq

/-- Global state: the `Post` table, the scheduler's job store, the uploaded
image files, and the stream of emitted socket events. -/
structure St where
  posts : List Post
  jobs : List Job
  files : List String
  events : List Event
deriving DecidableEq

/-- Generates a consistent job ID for a post (`_job_id` in `app.py`). -/
def _job_id (post_id : Nat) : String := "post_" ++ toString post_id

/-- Modelled from the spec: the Delayed Task Scheduler's `register`
operation (APScheduler `add_job` with `replace_existing=True`, an external
collaborator): a job with the same id is atomically replaced (§4.1). -/
def addJob (j : Job) (js : List Job) : List Job :=
  j :: js.filter (fun k => k.jid != j.jid)

/-- Modelled from the spec: the Delayed Task Scheduler's `cancel`
(APScheduler `remove_job`), which raises when the id is unknown (§4.1,
the caller must tolerate the error). -/
def removeJob (jid : String) (js : List Job) : Except String (List Job) :=
  if js.any (fun k => k.jid == jid) then .ok (js.filter (fun k => k.jid != jid))
  else .error "JobLookupError"

/-- Updates the status of the post with the given primary key to
`"posted"` (the single mutation `post.status = "posted"` on the fetched
row, followed by `db.session.commit()`). -/
def setPosted (post_id : Nat) (ps : List Post) : List Post :=
  ps.map (fun q => if q.id = post_id then { q with status := "posted" } else q)

/-- The job invoked by APScheduler to publish a post (`publish_post` in
`app.py`, lines 49–66): refetch the row; if absent, log and return; if its
status is not `"scheduled"`, log and return; otherwise mark it `"posted"`,
commit, and emit one `status_update` socket event. -/
def publish_post (post_id : Nat) (s : St) : St :=
  match s.posts.find? (fun p => p.id == post_id) with
  | none => s
  | some post =>
    if post.status ≠ "scheduled" then s
    else { s with posts := setPosted post_id s.posts,
                  events := s.events ++ [⟨post.id, "posted"⟩] }

/-- Modelled from the spec: the scheduler's firing step (§4.1 `run()`) —
when the fire time of a live task arrives, invoke the bound callback
(`publish_post` with the stored argument), then discard the task entry. -/
def fireTask (jid : String) (s : St) : St :=
  match s.jobs.find? (fun k => k.jid == jid) with
  | none => s
  | some j =>
    let s1 := publish_post j.arg s
    { s1 with jobs := s1.jobs.filter (fun k => k.jid != jid) }

/-- One iteration of the startup loop in `app.py` (lines 73–96): normalize
the post's time to an aware IST instant, publish immediately when the time
has passed, otherwise try to register the one-shot date job under
`_job_id`; a registration failure (`regFail`) is logged and skipped. -/
def reconcileStep (now : Int) (regFail : Nat → Bool) (s : St) (p : Post) : St :=
  let run_time := p.scheduled_time.normIST
  if run_time.instant ≤ now then publish_post p.id s
  else if regFail p.id then s
  else { s with jobs := addJob ⟨_job_id p.id, run_time, p.id⟩ s.jobs }

/-- The startup reconciliation in `app.py` (module level, lines 69–96):
query the posts whose status is `"scheduled"` and process each in turn. -/
def reconcile (now : Int) (regFail : Nat → Bool) (s : St) : St :=
  (s.posts.filter (fun p => p.status == "scheduled")).foldl
    (reconcileStep now regFail) s

/-- The primary key the store assigns to a newly inserted row (SQLite
rowid assignment: one more than the current maximum). -/
def freshId (ps : List Post) : Nat := ps.foldr (fun p m => max p.id m) 0 + 1

/-- Saving an uploaded file under its name (overwriting any earlier file of
the same name). -/
def saveFile (f : String) (fs : List String) : List String :=
  f :: fs.filter (fun g => g != f)

/-- The `/schedule` POST handler (`app.py` lines 104–142): parse the form
time as an aware IST datetime, save the optional upload, commit the new
post (status defaults to `"scheduled"`), then try to register the date job;
a registration failure (`regFail`) is caught and logged, never surfaced to
the requester. -/
def schedule (title content platform : String) (stNaive : Int)
    (image : Option String) (regFail : Bool) (s : St) : Except String St :=
  let scheduled_time : DT := ⟨stNaive, some istOffset⟩
  let image_filename := image
  let files1 := match image with
    | some f => saveFile f s.files
    | none => s.files
  let nid := freshId s.posts
  let new_post : Post :=
    ⟨nid, title, content, platform, scheduled_time, "scheduled", image_filename⟩
  let s1 : St := { s with posts := s.posts ++ [new_post], files := files1 }
  if regFail then .ok s1
  else .ok { s1 with jobs := addJob ⟨_job_id nid, scheduled_time, nid⟩ s1.jobs }

/-- The per-row update the `/edit/<id>` handler performs: the targeted post
gets the new title, content, platform, scheduled time and image reference;
its id and status are untouched; every other row is untouched. -/
def editUpd (id : Nat) (title content platform : String)
    (scheduled_time : DT) (newImage : Option String) (q : Post) : Post :=
  if q.id = id then
    { q with title := title, content := content, platform := platform,
             scheduled_time := scheduled_time, image_filename := newImage }
  else q

/-- The `/edit/<id>` POST handler (`app.py` lines 144–180): 404 when the
post is absent; otherwise overwrite title, content, platform and
`scheduled_time` (parsed as aware IST), optionally replace the image (the
old file is removed, the new one saved), commit, then try to re-register
the date job under `_job_id id` at the new `scheduled_time`; a registration
failure (`regFail`) is caught and logged. The status field is untouched. -/
def edit (id : Nat) (title content platform : String) (stNaive : Int)
    (image : Option String) (regFail : Bool) (s : St) : Except String St :=
  match s.posts.find? (fun p => p.id == id) with
  | none => .error "404"
  | some post =>
    let scheduled_time : DT := ⟨stNaive, some istOffset⟩
    let newImage := match image with
      | some f => some f
      | none => post.image_filename
    let files1 := match image with
      | some f =>
        let files0 := match post.image_filename with
          | some g => s.files.filter (fun x => x != g)
          | none => s.files
        saveFile f files0
      | none => s.files
    let posts1 := s.posts.map (editUpd id title content platform scheduled_time newImage)
    let s1 : St := { s with posts := posts1, files := files1 }
    if regFail then .ok s1
    else .ok { s1 with jobs := addJob ⟨_job_id id, scheduled_time, id⟩ s1.jobs }

/-- An observable step of the `/delete/<id>` handler, used to state in
which order the handler performs its effects. -/
inductive Act where
  | cancelAttempt (jid : String)
  | removeFile (f : String)
  | deleteRecord (post_id : Nat)
deriving DecidableEq

/-- The `/delete/<id>` handler (`app.py` lines 182–207): 404 when the post
is absent; otherwise first try to remove the scheduled job (a
`JobLookupError` is caught and logged), then remove the uploaded image file
if there is one, then delete the row and commit. The returned trace lists
the handler's effects in the order the code performs them. -/
def delete (id : Nat) (s : St) : Except String (St × List Act) :=
  match s.posts.find? (fun p => p.id == id) with
  | none => .error "404"
  | some post =>
    let job_id := _job_id post.id
    let jobs1 := match removeJob job_id s.jobs with
      | .ok js => js
      | .error _ => s.jobs
    let fileActs := match post.image_filename with
      | some f => if f ∈ s.files then [Act.removeFile f] else []
      | none => []
    let files1 := match post.image_filename with
      | some f => s.files.filter (fun g => g != f)
      | none => s.files
    .ok ({ posts := s.posts.filter (fun p => p.id != id), jobs := jobs1,
           files := files1, events := s.events },
         Act.cancelAttempt job_id :: fileActs ++ [Act.deleteRecord id])

/-- The `/` route (`app.py` lines 99–102): all posts ordered by
`scheduled_time` descending (`Post.query.order_by(Post.scheduled_time.desc())`,
which compares the stored wall-clock timestamps). -/
def index (s : St) : List Post :=
  s.posts.mergeSort (fun a b =>
    decide (b.scheduled_time.naive ≤ a.scheduled_time.naive))

/-- The program's operations on the shared state: the three mutating routes,
the startup reconciliation and the firing of a scheduled task (which runs
the publish callback). -/
inductive Op where
  | create (title content platform : String) (stNaive : Int)
      (image : Option String) (regFail : Bool)
  | editOp (id : Nat) (title content platform : String) (stNaive : Int)
      (image : Option String) (regFail : Bool)
  | deleteOp (id : Nat)
  | reconcileOp (now : Int) (regFail : Nat → Bool)
  | fire (jid : String)

/-- The state reached by running one operation (a handler that responds
404 leaves the state unchanged). -/
def applyOp : Op → St → St
  | .create t c pf st img f, s =>
    match schedule t c pf st img f s with | .ok s' => s' | .error _ => s
  | .editOp i t c pf st img f, s =>
    match edit i t c pf st img f s with | .ok s' => s' | .error _ => s
  | .deleteOp i, s =>
    match delete i s with | .ok r => r.1 | .error _ => s
  | .reconcileOp now f, s => reconcile now f s
  | .fire j, s => fireTask j s

/-- Running a sequence of operations from an initial state. -/
def execOps (ops : List Op) (s : St) : St :=
  ops.foldl (fun t op => applyOp op t) s

/-- Number of entries of a job store keyed by the job id of a given post. -/
def liveJobsL (js : List Job) (post_id : Nat) : Nat :=
  (js.filter (fun k => k.jid == _job_id post_id)).length

/-- Number of live scheduler entries keyed by the job id of a given post. -/
def liveJobs (s : St) (post_id : Nat) : Nat := liveJobsL s.jobs post_id

/-- The spec's core invariant (§3): every post with status `"scheduled"`
has at most one live task entry keyed by its id, and every post with status
`"posted"` has no live entry. -/
def Inv (s : St) : Prop :=
  ∀ p ∈ s.posts,
    (p.status = "scheduled" → liveJobs s p.id ≤ 1) ∧
    (p.status = "posted" → liveJobs s p.id = 0)

/-- Primary-key uniqueness of the post store. -/
def WfPosts (s : St) : Prop := (s.posts.map Post.id).Nodup

/-- Every job entry's string id matches its bound post-id argument; the
code only ever registers jobs of this shape. -/
def WfJobs (s : St) : Prop := ∀ k ∈ s.jobs, k.jid = _job_id k.arg

/-- Job ids in the scheduler are distinct (the scheduler keys entries by
their id). -/
def WfJobsU (s : St) : Prop := (s.jobs.map Job.jid).Nodup

/-- The operations for which the invariant-preservation statement of the
amended C3 is made: edits are restricted to posts still `"scheduled"`, and
the startup reconciliation to a task store that starts out empty. -/
def GoodOp : Op → St → Prop
  | .editOp i _ _ _ _ _ _, s => ∀ p ∈ s.posts, p.id = i → p.status = "scheduled"
  | .reconcileOp _ _, s => s.jobs = []
  | _, _ => True

/-- The Reconciliation Routine exactly as the spec words it (§4.2): take
the posts whose status is `scheduled`, one at a time; normalize a naive
`scheduledTime` by attaching the system's fixed offset; when the normalized
time is not after now, invoke the Publish Handler synchronously; otherwise
register a task at that time under the deterministic task id, a rejected
registration being a caught, logged error after which the routine moves on
to the next post. -/
def reconcileSpecGo (now : Int) (regFail : Nat → Bool) :
    List Post → St → St
  | [], s => s
  | p :: rest, s =>
    let t := if p.scheduled_time.tz = none
      then { p.scheduled_time with tz := some istOffset }
      else p.scheduled_time
    let s' :=
      if t.instant ≤ now then publish_post p.id s
      else
        match (if regFail p.id
                then Except.error "SchedulingFailure"
                else Except.ok (addJob ⟨_job_id p.id, t, p.id⟩ s.jobs) :
               Except String (List Job)) with
        | .ok js => { s with jobs := js }
        | .error _ => s
    reconcileSpecGo now regFail rest s'

/-- The spec-side reconciliation over the `scheduled` subset of the store. -/
def reconcileSpec (now : Int) (regFail : Nat → Bool) (s : St) : St :=
  reconcileSpecGo now regFail
    (s.posts.filter (fun p => p.status == "scheduled")) s

instance (s : St) : Decidable (Inv s) :=
  decidable_of_iff (∀ p ∈ s.posts,
    (p.status = "scheduled" → liveJobs s p.id ≤ 1) ∧
    (p.status = "posted" → liveJobs s p.id = 0)) Iff.rfl

instance (s : St) : Decidable (WfPosts s) :=
  decidable_of_iff ((s.posts.map Post.id).Nodup) Iff.rfl

instance (s : St) : Decidable (WfJobs s) :=
  decidable_of_iff (∀ k ∈ s.jobs, k.jid = _job_id k.arg) Iff.rfl

instance (s : St) : Decidable (WfJobsU s) :=
  decidable_of_iff ((s.jobs.map Job.jid).Nodup) Iff.rfl

/-- A sample post (id 1, still scheduled) used by the witnesses. -/
def p1 : Post := ⟨1, "a", "b", "x", ⟨100, some 330⟩, "scheduled", none⟩

/-- A sample state whose single post is scheduled and has one live job. -/
def st1 : St := ⟨[p1], [⟨_job_id 1, ⟨100, some 330⟩, 1⟩], [], []⟩

/-- A sample post (id 1, already posted) used by the witnesses. -/
def p2 : Post := ⟨1, "a", "b", "x", ⟨100, some 330⟩, "posted", none⟩

/-- A sample state whose single post is posted, with no live job. -/
def st2 : St := ⟨[p2], [], [], []⟩

/-! ### Injectivity of the job-id scheme

`_job_id` keys scheduler entries by the decimal representation of the post
id, so distinctness of post ids must transfer to distinctness of job ids. -/

/-- The decimal digit list of a natural number, most significant first,
written as structural recursion on the value. -/
def digitsRec (n : Nat) : List Char :=
  if _h : n < 10 then [Nat.digitChar n]
  else digitsRec (n / 10) ++ [Nat.digitChar (n % 10)]
decreasing_by exact Nat.div_lt_self (by omega) (by omega)

/-- Decoding of a decimal digit character. -/
def digitVal (c : Char) : Nat := c.toNat - 48

/-- Decoding of a most-significant-first decimal digit list. -/
def digitsVal (ds : List Char) : Nat :=
  ds.foldl (fun acc c => 10 * acc + digitVal c) 0

theorem digitVal_digitChar {d : Nat} (h : d < 10) :
    digitVal (Nat.digitChar d) = d := by
  revert h
  exact Nat.decidableBallLT 10 (fun d _ => digitVal (Nat.digitChar d) = d)
    |>.rec (fun h => absurd (by decide) h) (fun h => h d)

theorem digitsVal_append (xs : List Char) (c : Char) :
    digitsVal (xs ++ [c]) = 10 * digitsVal xs + digitVal c := by
  simp [digitsVal, List.foldl_append]

theorem digitsVal_digitsRec (n : Nat) : digitsVal (digitsRec n) = n := by
  induction n using Nat.strong_induction_on with
  | _ n ih =>
    rw [digitsRec]
    by_cases h : n < 10
    · simp [h, digitsVal, digitVal_digitChar h]
    · have hdiv : n / 10 < n := Nat.div_lt_self (by omega) (by omega)
      simp only [h, dif_neg, not_false_iff]
      rw [digitsVal_append, ih _ hdiv,
        digitVal_digitChar (Nat.mod_lt n (by omega))]
      omega

theorem digitsRec_injective : Function.Injective digitsRec :=
  Function.LeftInverse.injective digitsVal_digitsRec

theorem toDigitsCore_eq_digitsRec :
    ∀ (fuel n : Nat) (ds : List Char), n < fuel →
      Nat.toDigitsCore 10 fuel n ds = digitsRec n ++ ds
  | 0, _, _, h => absurd h (by omega)
  | fuel + 1, n, ds, h => by
    rw [Nat.toDigitsCore, digitsRec]
    by_cases h10 : n < 10
    · have : n / 10 = 0 := Nat.div_eq_of_lt h10
      simp [this, h10, Nat.mod_eq_of_lt h10]
    · have hne : ¬ n / 10 = 0 := by
        intro h0
        rw [Nat.div_eq_zero_iff (by omega)] at h0
        omega
      have hlt : n / 10 < fuel := by
        have : n / 10 < n := Nat.div_lt_self (by omega) (by omega)
        omega
      simp only [hne, if_neg, not_false_iff, h10, dif_neg]
      rw [toDigitsCore_eq_digitsRec fuel (n / 10) _ hlt]
      simp

theorem repr_injective : Function.Injective Nat.repr := by
  intro a b h
  apply digitsRec_injective
  have ha := toDigitsCore_eq_digitsRec (a + 1) a [] (by omega)
  have hb := toDigitsCore_eq_digitsRec (b + 1) b [] (by omega)
  have h' : Nat.toDigits 10 a = Nat.toDigits 10 b := by
    have := congrArg String.data h
    simpa [Nat.repr, List.asString] using this
  simp only [Nat.toDigits] at h'
  rw [ha, hb] at h'
  simpa using h'

theorem _job_id_injective : Function.Injective _job_id := by
  intro a b h
  apply repr_injective
  have hd := congrArg String.data h
  simp only [_job_id, String.data_append] at hd
  have : (toString a).data = (toString b).data := List.append_cancel_left hd
  exact String.ext this

/-! ### Job-store algebra -/

theorem filter_addJob_self (j : Job) (js : List Job) :
    (addJob j js).filter (fun k => k.jid == j.jid) = [j] := by
  simp only [addJob, List.filter_cons, beq_self_eq_true, if_pos,
    List.filter_filter]
  rw [List.filter_eq_nil_iff.mpr]
  intro k _
  by_cases h : k.jid = j.jid <;> simp [h]

theorem filter_addJob_other (j : Job) (js : List Job) (jid' : String)
    (h : j.jid ≠ jid') :
    (addJob j js).filter (fun k => k.jid == jid') =
      js.filter (fun k => k.jid == jid') := by
  simp only [addJob, List.filter_cons]
  rw [if_neg (by simpa using h), List.filter_filter]
  apply List.filter_congr
  intro k _
  by_cases hk : k.jid = jid'
  · have hkj : k.jid ≠ j.jid := by rw [hk]; exact fun he => h he.symm
    simp [hk, hkj]
    exact fun he => h he.symm
  · simp [hk]

theorem liveJobsL_addJob_self (a : Nat) (t : DT) (js : List Job) :
    liveJobsL (addJob ⟨_job_id a, t, a⟩ js) a = 1 := by
  simp [liveJobsL, filter_addJob_self ⟨_job_id a, t, a⟩ js]

theorem liveJobsL_addJob_other (a b : Nat) (t : DT) (js : List Job)
    (hab : a ≠ b) :
    liveJobsL (addJob ⟨_job_id a, t, a⟩ js) b = liveJobsL js b := by
  have : _job_id a ≠ _job_id b := fun h => hab (_job_id_injective h)
  simp [liveJobsL, filter_addJob_other ⟨_job_id a, t, a⟩ js (_job_id b) this]

theorem liveJobsL_filter_le (q : Job → Bool) (js : List Job) (b : Nat) :
    liveJobsL (js.filter q) b ≤ liveJobsL js b := by
  simp only [liveJobsL]
  exact List.Sublist.length_le (List.Sublist.filter _ (List.filter_sublist js))

theorem liveJobsL_remove_self (a : Nat) (js : List Job) :
    liveJobsL (js.filter (fun k => k.jid != _job_id a)) a = 0 := by
  simp only [liveJobsL, List.length_eq_zero, List.filter_filter]
  rw [List.filter_eq_nil_iff]
  intro k _
  by_cases h : k.jid = _job_id a <;> simp [h]

theorem nodup_le_one {l : List Job} (jid : String)
    (h : (l.map Job.jid).Nodup) :
    (l.filter (fun k => k.jid == jid)).length ≤ 1 := by
  cases hl : l.filter (fun k => k.jid == jid) with
  | nil => simp
  | cons a t' =>
    cases t' with
    | nil => simp
    | cons b t =>
      exfalso
      have hsub : List.Sublist ((a :: b :: t).map Job.jid) (l.map Job.jid) :=
        List.Sublist.map Job.jid (hl ▸ List.filter_sublist l)
      have hnd : ((a :: b :: t).map Job.jid).Nodup := h.sublist hsub
      have ha : a ∈ l.filter (fun k => k.jid == jid) := by rw [hl]; simp
      have hb : b ∈ l.filter (fun k => k.jid == jid) := by rw [hl]; simp
      have ha' : a.jid = jid := by simpa using (List.mem_filter.mp ha).2
      have hb' : b.jid = jid := by simpa using (List.mem_filter.mp hb).2
      have hne : a.jid ≠ b.jid := by
        have hx := hnd
        simp only [List.map_cons, List.nodup_cons, List.mem_cons] at hx
        exact fun he => hx.1 (Or.inl he)
      exact hne (ha'.trans hb'.symm)

theorem liveJobsL_le_one {js : List Job} (h : (js.map Job.jid).Nodup) (b : Nat) :
    liveJobsL js b ≤ 1 := nodup_le_one (_job_id b) h

theorem wfJobsU_addJob {js : List Job} (j : Job)
    (h : (js.map Job.jid).Nodup) :
    ((addJob j js).map Job.jid).Nodup := by
  simp only [addJob, List.map_cons, List.nodup_cons]
  constructor
  · intro hm
    obtain ⟨k, hk, hkj⟩ := List.mem_map.mp hm
    have := (List.mem_filter.mp hk).2
    rw [hkj] at this
    simp [bne] at this
  · exact h.sublist (List.Sublist.map Job.jid (List.filter_sublist js))

theorem wfJobsU_filter {js : List Job} (q : Job → Bool)
    (h : (js.map Job.jid).Nodup) :
    ((js.filter q).map Job.jid).Nodup :=
  h.sublist (List.Sublist.map Job.jid (List.filter_sublist js))

/-! ### Frame and shape lemmas for the publish handler -/

theorem publish_jobs (a : Nat) (s : St) : (publish_post a s).jobs = s.jobs := by
  unfold publish_post
  cases s.posts.find? (fun p => p.id == a) with
  | none => rfl
  | some post => by_cases h : post.status = "scheduled" <;> simp [h]

theorem publish_files (a : Nat) (s : St) : (publish_post a s).files = s.files := by
  unfold publish_post
  cases s.posts.find? (fun p => p.id == a) with
  | none => rfl
  | some post => by_cases h : post.status = "scheduled" <;> simp [h]

theorem publish_posts_cases (a : Nat) (s : St) :
    (publish_post a s).posts = s.posts ∨
      (publish_post a s).posts = setPosted a s.posts := by
  unfold publish_post
  cases s.posts.find? (fun p => p.id == a) with
  | none => exact Or.inl rfl
  | some post =>
    by_cases h : post.status = "scheduled"
    · right; simp [h]
    · left; simp [h]

theorem setPosted_mem {a : Nat} {ps : List Post} {q : Post}
    (h : q ∈ setPosted a ps) :
    ∃ p ∈ ps, (p.id ≠ a ∧ q = p) ∨ (p.id = a ∧ q = { p with status := "posted" }) := by
  obtain ⟨p, hp, hq⟩ := List.mem_map.mp h
  refine ⟨p, hp, ?_⟩
  by_cases hid : p.id = a
  · right; exact ⟨hid, by rw [← hq]; simp [hid]⟩
  · left; exact ⟨hid, by rw [← hq]; simp [hid]⟩

theorem setPosted_map_id (a : Nat) (ps : List Post) :
    (setPosted a ps).map Post.id = ps.map Post.id := by
  simp only [setPosted, List.map_map]
  apply List.map_congr_left
  intro p _
  by_cases h : p.id = a <;> simp [h]

/-! ### Fresh ids -/

theorem le_foldr_max (ps : List Post) : ∀ p ∈ ps, p.id ≤ ps.foldr (fun p m => max p.id m) 0 := by
  induction ps with
  | nil => intro p hp; cases hp
  | cons q t ih =>
    intro p hp
    rcases List.mem_cons.mp hp with h | h
    · subst h; simp [List.foldr]
    · exact le_trans (ih p h) (by simp [List.foldr])

theorem freshId_gt (ps : List Post) : ∀ p ∈ ps, p.id < freshId ps := by
  intro p hp
  have := le_foldr_max ps p hp
  unfold freshId
  omega

/-! ### Shape lemmas for the handlers -/

theorem editUpd_id (i : Nat) (t c pf : String) (st : DT) (img : Option String)
    (q : Post) : (editUpd i t c pf st img q).id = q.id := by
  unfold editUpd
  by_cases h : q.id = i <;> simp [h]

theorem editUpd_status (i : Nat) (t c pf : String) (st : DT) (img : Option String)
    (q : Post) : (editUpd i t c pf st img q).status = q.status := by
  unfold editUpd
  by_cases h : q.id = i <;> simp [h]

theorem schedule_eq (t c pf : String) (stN : Int) (img : Option String)
    (f : Bool) (s : St) :
    schedule t c pf stN img f s = .ok
      { posts := s.posts ++
          [⟨freshId s.posts, t, c, pf, ⟨stN, some istOffset⟩, "scheduled", img⟩],
        jobs := if f then s.jobs
          else addJob ⟨_job_id (freshId s.posts), ⟨stN, some istOffset⟩,
            freshId s.posts⟩ s.jobs,
        files := match img with
          | some fn => saveFile fn s.files
          | none => s.files,
        events := s.events } := by
  cases f <;> simp [schedule]

theorem edit_err {i : Nat} {t c pf : String} {stN : Int} {img : Option String}
    {f : Bool} {s : St} (hfind : s.posts.find? (fun p => p.id == i) = none) :
    edit i t c pf stN img f s = .error "404" := by
  simp [edit, hfind]

theorem edit_eq {i : Nat} (t c pf : String) (stN : Int) (img : Option String)
    (f : Bool) {s : St} {post : Post}
    (hfind : s.posts.find? (fun p => p.id == i) = some post) :
    edit i t c pf stN img f s = .ok
      { posts := s.posts.map (editUpd i t c pf ⟨stN, some istOffset⟩
          (match img with | some fn => some fn | none => post.image_filename)),
        jobs := if f then s.jobs
          else addJob ⟨_job_id i, ⟨stN, some istOffset⟩, i⟩ s.jobs,
        files := match img with
          | some fn => saveFile fn (match post.image_filename with
              | some g => s.files.filter (fun x => x != g)
              | none => s.files)
          | none => s.files,
        events := s.events } := by
  cases f <;> simp [edit, hfind]

theorem delete_err {i : Nat} {s : St}
    (hfind : s.posts.find? (fun p => p.id == i) = none) :
    delete i s = .error "404" := by
  simp [delete, hfind]

theorem delete_eq {i : Nat} {s : St} {post : Post}
    (hfind : s.posts.find? (fun p => p.id == i) = some post) :
    delete i s = .ok
      ({ posts := s.posts.filter (fun p => p.id != i),
         jobs := match removeJob (_job_id post.id) s.jobs with
           | .ok js => js
           | .error _ => s.jobs,
         files := match post.image_filename with
           | some fn => s.files.filter (fun g => g != fn)
           | none => s.files,
         events := s.events },
       Act.cancelAttempt (_job_id post.id) ::
         (match post.image_filename with
           | some fn => if fn ∈ s.files then [Act.removeFile fn] else []
           | none => []) ++ [Act.deleteRecord i]) := by
  simp [delete, hfind]

theorem find?_id_eq {ps : List Post} {i : Nat} {post : Post}
    (h : ps.find? (fun p => p.id == i) = some post) : post.id = i := by
  have := List.find?_some h
  simpa using this

theorem find?_isSome_of_mem {ps : List Post} {i : Nat}
    (h : ∃ p ∈ ps, p.id = i) :
    ∃ post, ps.find? (fun p => p.id == i) = some post := by
  obtain ⟨p, hp, hpi⟩ := h
  have : (ps.find? (fun p => p.id == i)).isSome := by
    rw [List.find?_isSome]
    exact ⟨p, hp, by simp [hpi]⟩
  exact Option.isSome_iff_exists.mp this

/-! ### Status monotonicity -/

theorem postedAll_setPosted {ps : List Post} {pid : Nat} (a : Nat)
    (hall : ∀ p ∈ ps, p.id = pid → p.status = "posted") :
    ∀ q ∈ setPosted a ps, q.id = pid → q.status = "posted" := by
  intro q hq hid
  obtain ⟨p, hp, hcase⟩ := setPosted_mem hq
  rcases hcase with ⟨_, hqp⟩ | ⟨_, hqp⟩
  · rw [hqp] at hid ⊢
    exact hall p hp hid
  · rw [hqp]

theorem postedAll_publish {s : St} {pid : Nat} (a : Nat)
    (hall : ∀ p ∈ s.posts, p.id = pid → p.status = "posted") :
    ∀ q ∈ (publish_post a s).posts, q.id = pid → q.status = "posted" := by
  rcases publish_posts_cases a s with h | h <;> rw [h]
  · exact hall
  · exact postedAll_setPosted a hall

theorem mono_step (op : Op) (s : St) (pid : Nat)
    (hex : ∃ p ∈ s.posts, p.id = pid)
    (hall : ∀ p ∈ s.posts, p.id = pid → p.status = "posted") :
    ∀ q ∈ (applyOp op s).posts, q.id = pid → q.status = "posted" := by
  cases op with
  | create t c pf stN img f =>
    intro q hq hid
    have hposts : (applyOp (.create t c pf stN img f) s).posts = s.posts ++
        [⟨freshId s.posts, t, c, pf, ⟨stN, some istOffset⟩, "scheduled", img⟩] := by
      simp [applyOp, schedule_eq]
    rw [hposts] at hq
    rcases List.mem_append.mp hq with h | h
    · exact hall q h hid
    · exfalso
      obtain ⟨p, hp, hpi⟩ := hex
      have hlt := freshId_gt s.posts p hp
      simp at h
      rw [h] at hid
      simp at hid
      omega
  | editOp i t c pf stN img f =>
    cases hfind : s.posts.find? (fun p => p.id == i) with
    | none =>
      have hs : applyOp (.editOp i t c pf stN img f) s = s := by
        simp [applyOp, edit_err hfind]
      rw [hs]
      exact hall
    | some post =>
      have hposts : (applyOp (.editOp i t c pf stN img f) s).posts =
          s.posts.map (editUpd i t c pf ⟨stN, some istOffset⟩
            (match img with | some fn => some fn | none => post.image_filename)) := by
        simp [applyOp, edit_eq t c pf stN img f hfind]
      intro q hq hid
      rw [hposts] at hq
      obtain ⟨p, hp, hq'⟩ := List.mem_map.mp hq
      rw [← hq'] at hid ⊢
      rw [editUpd_status]
      rw [editUpd_id] at hid
      exact hall p hp hid
  | deleteOp i =>
    intro q hq hid
    cases hfind : s.posts.find? (fun p => p.id == i) with
    | none =>
      have hs : applyOp (.deleteOp i) s = s := by
        simp [applyOp, delete_err hfind]
      rw [hs] at hq
      exact hall q hq hid
    | some post =>
      have hposts : (applyOp (.deleteOp i) s).posts =
          s.posts.filter (fun p => p.id != i) := by
        simp [applyOp, delete_eq hfind]
      rw [hposts] at hq
      exact hall q (List.mem_of_mem_filter hq) hid
  | reconcileOp now f =>
    have haux : ∀ (l : List Post) (s0 : St),
        (∀ p ∈ s0.posts, p.id = pid → p.status = "posted") →
        ∀ q ∈ (l.foldl (reconcileStep now f) s0).posts, q.id = pid →
          q.status = "posted" := by
      intro l
      induction l with
      | nil => intro s0 h; exact h
      | cons p rest ih =>
        intro s0 h
        simp only [List.foldl_cons]
        apply ih
        unfold reconcileStep
        by_cases h1 : (p.scheduled_time.normIST).instant ≤ now
        · simpa [h1] using postedAll_publish p.id h
        · by_cases h2 : f p.id = true <;> simp [h1, h2] <;> exact h
    exact haux _ s hall
  | fire jid =>
    intro q hq hid
    cases hfind : s.jobs.find? (fun k => k.jid == jid) with
    | none =>
      have hs : applyOp (.fire jid) s = s := by
        simp [applyOp, fireTask, hfind]
      rw [hs] at hq
      exact hall q hq hid
    | some j =>
      have hposts : (applyOp (.fire jid) s).posts = (publish_post j.arg s).posts := by
        simp [applyOp, fireTask, hfind]
      rw [hposts] at hq
      exact postedAll_publish j.arg hall q hq hid

/-! ### Preservation of the scheduler invariant -/

theorem inv_publish (a : Nat) (s : St) (hU : WfJobsU s) (hI : Inv s)
    (h0 : liveJobsL s.jobs a = 0) : Inv (publish_post a s) := by
  intro q hq
  have hjeq : (publish_post a s).jobs = s.jobs := publish_jobs a s
  rcases publish_posts_cases a s with hc | hc
  · rw [hc] at hq
    have hIq := hI q hq
    constructor
    · intro h
      rw [liveJobs, hjeq]
      exact hIq.1 h
    · intro h
      rw [liveJobs, hjeq]
      exact hIq.2 h
  · rw [hc] at hq
    obtain ⟨q0, hq0, hcase⟩ := setPosted_mem hq
    rcases hcase with ⟨_, hqq⟩ | ⟨hid0, hqq⟩
    · rw [hqq]
      have hIq := hI q0 hq0
      constructor
      · intro h
        rw [liveJobs, hjeq]
        exact hIq.1 h
      · intro h
        rw [liveJobs, hjeq]
        exact hIq.2 h
    · rw [hqq]
      constructor
      · intro _
        rw [liveJobs, hjeq]
        exact liveJobsL_le_one hU _
      · intro _
        show liveJobsL (publish_post a s).jobs q0.id = 0
        rw [hjeq, hid0]
        exact h0

theorem inv_create (t c pf : String) (stN : Int) (img : Option String)
    (f : Bool) (s : St) (hU : WfJobsU s) (hI : Inv s) :
    Inv (applyOp (.create t c pf stN img f) s) := by
  have hjobs : (applyOp (.create t c pf stN img f) s).jobs =
      if f then s.jobs
      else addJob ⟨_job_id (freshId s.posts), ⟨stN, some istOffset⟩,
        freshId s.posts⟩ s.jobs := by
    simp [applyOp, schedule_eq]
  have hposts : (applyOp (.create t c pf stN img f) s).posts = s.posts ++
      [⟨freshId s.posts, t, c, pf, ⟨stN, some istOffset⟩, "scheduled", img⟩] := by
    simp [applyOp, schedule_eq]
  have hU' : ((applyOp (.create t c pf stN img f) s).jobs.map Job.jid).Nodup := by
    rw [hjobs]
    cases f
    · simpa using wfJobsU_addJob _ hU
    · simpa using hU
  intro p hp
  rw [hposts] at hp
  rcases List.mem_append.mp hp with hmem | hnew
  · have hne : p.id ≠ freshId s.posts := Nat.ne_of_lt (freshId_gt s.posts p hmem)
    have hlive : liveJobs (applyOp (.create t c pf stN img f) s) p.id
        = liveJobsL s.jobs p.id := by
      rw [liveJobs, hjobs]
      cases f
      · simpa using liveJobsL_addJob_other (freshId s.posts) p.id _ s.jobs
          (fun h => hne h.symm)
      · simp
    rw [hlive]
    exact hI p hmem
  · simp only [List.mem_singleton] at hnew
    constructor
    · intro _
      exact liveJobsL_le_one hU' p.id
    · intro hpost
      rw [hnew] at hpost
      simp at hpost

theorem inv_edit (i : Nat) (t c pf : String) (stN : Int) (img : Option String)
    (f : Bool) (s : St) (hU : WfJobsU s) (hI : Inv s)
    (hG : ∀ p ∈ s.posts, p.id = i → p.status = "scheduled") :
    Inv (applyOp (.editOp i t c pf stN img f) s) := by
  cases hfind : s.posts.find? (fun p => p.id == i) with
  | none =>
    have hs : applyOp (.editOp i t c pf stN img f) s = s := by
      simp [applyOp, edit_err hfind]
    rw [hs]
    exact hI
  | some post =>
    have hposts : (applyOp (.editOp i t c pf stN img f) s).posts =
        s.posts.map (editUpd i t c pf ⟨stN, some istOffset⟩
          (match img with | some fn => some fn | none => post.image_filename)) := by
      simp [applyOp, edit_eq t c pf stN img f hfind]
    have hjobs : (applyOp (.editOp i t c pf stN img f) s).jobs =
        if f then s.jobs
        else addJob ⟨_job_id i, ⟨stN, some istOffset⟩, i⟩ s.jobs := by
      clear hposts
      simp [applyOp, edit_eq t c pf stN img f hfind]
    have hU' : ((applyOp (.editOp i t c pf stN img f) s).jobs.map Job.jid).Nodup := by
      rw [hjobs]
      cases f
      · simpa using wfJobsU_addJob _ hU
      · simpa using hU
    intro p hp
    rw [hposts] at hp
    obtain ⟨q, hq, hpq⟩ := List.mem_map.mp hp
    have hqid : q.id = p.id := by rw [← hpq, editUpd_id]
    have hqst : q.status = p.status := by rw [← hpq, editUpd_status]
    constructor
    · intro _
      exact liveJobsL_le_one hU' p.id
    · intro hpost
      have hqpost : q.status = "posted" := by rw [hqst]; exact hpost
      have hpi : p.id ≠ i := by
        intro h
        have := hG q hq (by rw [hqid]; exact h)
        rw [hqpost] at this
        simp at this
      have h0 : liveJobsL s.jobs p.id = 0 := by
        have := (hI q hq).2 hqpost
        rw [liveJobs, hqid] at this
        exact this
      rw [liveJobs, hjobs]
      cases f
      · rw [if_neg (by simp)]
        rw [liveJobsL_addJob_other i p.id _ s.jobs (fun h => hpi h.symm)]
        exact h0
      · simpa using h0

theorem inv_delete (i : Nat) (s : St) (hI : Inv s) :
    Inv (applyOp (.deleteOp i) s) := by
  cases hfind : s.posts.find? (fun p => p.id == i) with
  | none =>
    have hs : applyOp (.deleteOp i) s = s := by
      simp [applyOp, delete_err hfind]
    rw [hs]
    exact hI
  | some post =>
    have hjobs2 : (applyOp (.deleteOp i) s).jobs = s.jobs ∨
        (applyOp (.deleteOp i) s).jobs =
          s.jobs.filter (fun k => k.jid != _job_id post.id) := by
      have happ : (applyOp (.deleteOp i) s).jobs =
          match removeJob (_job_id post.id) s.jobs with
          | .ok js => js
          | .error _ => s.jobs := by
        simp [applyOp, delete_eq hfind]
      rw [happ]
      unfold removeJob
      by_cases h : s.jobs.any (fun k => k.jid == _job_id post.id)
      · right; simp [h]
      · left; simp [h]
    have hposts : (applyOp (.deleteOp i) s).posts =
        s.posts.filter (fun p => p.id != i) := by
      simp [applyOp, delete_eq hfind]
    intro p hp
    rw [hposts] at hp
    have hmem := List.mem_of_mem_filter hp
    have hIp := hI p hmem
    rcases hjobs2 with hj | hj
    · constructor
      · intro h
        rw [liveJobs, hj]
        exact hIp.1 h
      · intro h
        rw [liveJobs, hj]
        exact hIp.2 h
    · constructor
      · intro h
        rw [liveJobs, hj]
        exact le_trans (liveJobsL_filter_le _ _ _) (hIp.1 h)
      · intro h
        rw [liveJobs, hj]
        have h0 := hIp.2 h
        have hle := liveJobsL_filter_le (fun k => k.jid != _job_id post.id) s.jobs p.id
        rw [liveJobs] at h0
        omega

theorem inv_fire (jid : String) (s : St) (hJ : WfJobs s) (hU : WfJobsU s)
    (hI : Inv s) : Inv (applyOp (.fire jid) s) := by
  cases hfind : s.jobs.find? (fun k => k.jid == jid) with
  | none =>
    have hs : applyOp (.fire jid) s = s := by
      simp [applyOp, fireTask, hfind]
    rw [hs]
    exact hI
  | some j =>
    have hjmem : j ∈ s.jobs := List.mem_of_find?_eq_some hfind
    have hjid : j.jid = jid := by simpa using List.find?_some hfind
    have harg : jid = _job_id j.arg := by rw [← hjid]; exact hJ j hjmem
    have hjobs : (applyOp (.fire jid) s).jobs =
        s.jobs.filter (fun k => k.jid != jid) := by
      simp [applyOp, fireTask, hfind, publish_jobs]
    have hposts : (applyOp (.fire jid) s).posts = (publish_post j.arg s).posts := by
      simp [applyOp, fireTask, hfind]
    intro p hp
    rw [hposts] at hp
    rcases publish_posts_cases j.arg s with hc | hc
    · rw [hc] at hp
      have hIp := hI p hp
      constructor
      · intro h
        rw [liveJobs, hjobs]
        exact le_trans (liveJobsL_filter_le _ _ _) (hIp.1 h)
      · intro h
        rw [liveJobs, hjobs]
        have h0 := hIp.2 h
        rw [liveJobs] at h0
        have hle := liveJobsL_filter_le (fun k => k.jid != jid) s.jobs p.id
        omega
    · rw [hc] at hp
      obtain ⟨q0, hq0, hcase⟩ := setPosted_mem hp
      rcases hcase with ⟨_, hpq⟩ | ⟨hid0, hpq⟩
      · rw [hpq]
        have hIq := hI q0 hq0
        constructor
        · intro h
          rw [liveJobs, hjobs]
          exact le_trans (liveJobsL_filter_le _ _ _) (hIq.1 h)
        · intro h
          rw [liveJobs, hjobs]
          have h0 := hIq.2 h
          rw [liveJobs] at h0
          have hle := liveJobsL_filter_le (fun k => k.jid != jid) s.jobs q0.id
          omega
      · rw [hpq]
        constructor
        · intro _
          rw [liveJobs, hjobs]
          exact liveJobsL_le_one (wfJobsU_filter _ hU) _
        · intro _
          show liveJobsL (applyOp (.fire jid) s).jobs q0.id = 0
          rw [hjobs, hid0, harg]
          exact liveJobsL_remove_self j.arg s.jobs

theorem inv_reconcile_aux (now : Int) (regFail : Nat → Bool) :
    ∀ (l : List Post) (s : St),
      WfJobsU s →
      (∀ p ∈ l, liveJobsL s.jobs p.id = 0) →
      (l.map Post.id).Nodup →
      (∀ p ∈ l, ∀ q ∈ s.posts, q.id = p.id → q.status = "scheduled") →
      Inv s →
      Inv (l.foldl (reconcileStep now regFail) s) := by
  intro l
  induction l with
  | nil =>
    intro s _ _ _ _ hI
    exact hI
  | cons p rest ih =>
    intro s hU h0 hnd h4 hI
    have hhead : p.id ∉ rest.map Post.id := (List.nodup_cons.mp hnd).1
    simp only [List.foldl_cons]
    by_cases hdue : (p.scheduled_time.normIST).instant ≤ now
    · have hstep : reconcileStep now regFail s p = publish_post p.id s := by
        simp [reconcileStep, hdue]
      rw [hstep]
      apply ih
      · show ((publish_post p.id s).jobs.map Job.jid).Nodup
        rw [publish_jobs]
        exact hU
      · intro r hr
        rw [publish_jobs]
        exact h0 r (List.mem_cons_of_mem _ hr)
      · exact (List.nodup_cons.mp hnd).2
      · intro r hr q hq hql
        rcases publish_posts_cases p.id s with hc | hc
        · rw [hc] at hq
          exact h4 r (List.mem_cons_of_mem _ hr) q hq hql
        · rw [hc] at hq
          obtain ⟨q0, hq0, hcase⟩ := setPosted_mem hq
          rcases hcase with ⟨_, hqq⟩ | ⟨hid0, hqq⟩
          · rw [hqq] at hql ⊢
            exact h4 r (List.mem_cons_of_mem _ hr) q0 hq0 hql
          · exfalso
            have hqid : q.id = q0.id := by rw [hqq]
            rw [hqid, hid0] at hql
            exact hhead (hql ▸ List.mem_map_of_mem Post.id hr)
      · exact inv_publish p.id s hU hI (h0 p (List.mem_cons_self p rest))
    · by_cases hfail : regFail p.id
      · have hstep : reconcileStep now regFail s p = s := by
          simp [reconcileStep, hdue, hfail]
        rw [hstep]
        apply ih s hU
          (fun r hr => h0 r (List.mem_cons_of_mem _ hr))
          (List.nodup_cons.mp hnd).2
          (fun r hr => h4 r (List.mem_cons_of_mem _ hr)) hI
      · have hstep : reconcileStep now regFail s p =
            { s with jobs := addJob ⟨_job_id p.id, p.scheduled_time.normIST, p.id⟩ s.jobs } := by
          simp [reconcileStep, hdue, hfail]
        rw [hstep]
        apply ih
        · exact wfJobsU_addJob _ hU
        · intro r hr
          show liveJobsL (addJob ⟨_job_id p.id, p.scheduled_time.normIST, p.id⟩ s.jobs) r.id = 0
          rw [liveJobsL_addJob_other p.id r.id _ s.jobs
            (fun h => hhead (h ▸ List.mem_map_of_mem Post.id hr))]
          exact h0 r (List.mem_cons_of_mem _ hr)
        · exact (List.nodup_cons.mp hnd).2
        · intro r hr q hq hql
          exact h4 r (List.mem_cons_of_mem _ hr) q hq hql
        · intro q hq
          constructor
          · intro _
            exact liveJobsL_le_one (wfJobsU_addJob _ hU) q.id
          · intro hpost
            have hqne : q.id ≠ p.id := by
              intro h
              have := h4 p (List.mem_cons_self p rest) q hq h
              rw [hpost] at this
              simp at this
            show liveJobsL (addJob ⟨_job_id p.id, p.scheduled_time.normIST, p.id⟩ s.jobs) q.id = 0
            rw [liveJobsL_addJob_other p.id q.id _ s.jobs (fun h => hqne h.symm)]
            exact (hI q hq).2 hpost

theorem inv_reconcile (now : Int) (regFail : Nat → Bool) (s : St)
    (hP : WfPosts s) (hjobs : s.jobs = []) :
    Inv (applyOp (.reconcileOp now regFail) s) := by
  show Inv (reconcile now regFail s)
  rw [reconcile]
  apply inv_reconcile_aux
  · show (s.jobs.map Job.jid).Nodup
    rw [hjobs]
    simp
  · intro p _
    rw [hjobs]
    simp [liveJobsL]
  · exact hP.sublist (List.Sublist.map _ (List.filter_sublist _))
  · intro p hp q hq hql
    have hpmem := List.mem_of_mem_filter hp
    have hqp : q = p := List.inj_on_of_nodup_map hP hq hpmem hql
    rw [hqp]
    simpa using (List.mem_filter.mp hp).2
  · intro p _
    constructor
    · intro _
      rw [liveJobs, hjobs]
      simp [liveJobsL]
    · intro _
      rw [liveJobs, hjobs]
      simp [liveJobsL]

/-! ### Source loop versus spec wording of reconciliation -/

theorem reconcileGo_eq_spec (now : Int) (regFail : Nat → Bool) :
    ∀ (l : List Post) (s : St),
      l.foldl (reconcileStep now regFail) s = reconcileSpecGo now regFail l s := by
  intro l
  induction l with
  | nil => intro s; rfl
  | cons p rest ih =>
    intro s
    simp only [List.foldl_cons, reconcileSpecGo]
    rw [← ih]
    congr 1
    unfold reconcileStep DT.normIST
    by_cases hfail : regFail p.id <;> simp [hfail]

/-! ### Last registration wins -/

theorem foldl_addJob_last (js : List Job) (regs : List Job) (j : Job) :
    ((regs ++ [j]).foldl (fun a k => addJob k a) js).filter
      (fun k => k.jid == j.jid) = [j] := by
  rw [List.foldl_append]
  simp only [List.foldl_cons, List.foldl_nil]
  exact filter_addJob_self j _

/-! ### The claims -/

/-- C1: for every post id, `publish_post` returns without changing any state
and without emitting a notification when the post is absent, or when its
status is not `"scheduled"`; otherwise it sets the post's status to
`"posted"`, commits that change, and emits exactly one status-change
notification `{postId, status: "posted"}`. -/
theorem C1_publish_handler_contract (s : St) (post_id : Nat) :
    (s.posts.find? (fun p => p.id == post_id) = none →
      publish_post post_id s = s) ∧
    (∀ post, s.posts.find? (fun p => p.id == post_id) = some post →
      post.status ≠ "scheduled" → publish_post post_id s = s) ∧
    (∀ post, s.posts.find? (fun p => p.id == post_id) = some post →
      post.status = "scheduled" →
      publish_post post_id s =
        { s with posts := setPosted post_id s.posts,
                 events := s.events ++ [⟨post_id, "posted"⟩] }) := by
  refine ⟨fun h => ?_, fun post h hst => ?_, fun post h hst => ?_⟩
  · simp [publish_post, h]
  · simp [publish_post, h, hst]
  · have hid : post.id = post_id := find?_id_eq h
    simp [publish_post, h, hst, hid]

/-- Witness for C1: publishing the scheduled post of `st1`. -/
theorem C1_publish_handler_contract_witness :
    publish_post 1 st1 = { st1 with
      posts := setPosted 1 st1.posts
      events := st1.events ++ [⟨1, "posted"⟩] } :=
  (C1_publish_handler_contract st1 1).2.2 p1 (by decide) (by decide)

/-- C2: status is monotonic — starting from a state in which the post with
the given id is `"posted"`, running any sequence of the program's
operations (create, edit, delete, startup reconciliation, task firing)
during which that post continues to exist never takes its status back to
`"scheduled"`: it remains `"posted"`. -/
theorem C2_status_monotonic (ops : List Op) (s : St) (pid : Nat)
    (hall : ∀ p ∈ s.posts, p.id = pid → p.status = "posted")
    (hpres : ∀ pre suf, ops = pre ++ suf →
      ∃ p ∈ (execOps pre s).posts, p.id = pid) :
    ∀ q ∈ (execOps ops s).posts, q.id = pid → q.status = "posted" := by
  induction ops generalizing s with
  | nil => exact hall
  | cons op rest ih =>
    have hex : ∃ p ∈ s.posts, p.id = pid := hpres [] (op :: rest) rfl
    have hall' := mono_step op s pid hex hall
    have hpres' : ∀ pre suf, rest = pre ++ suf →
        ∃ p ∈ (execOps pre (applyOp op s)).posts, p.id = pid := by
      intro pre suf h
      have := hpres (op :: pre) suf (by rw [List.cons_append, h])
      simpa [execOps, List.foldl_cons] using this
    simp only [execOps, List.foldl_cons]
    exact ih (applyOp op s) hall' hpres'

/-- Witness for C2: one firing over a store holding a posted post leaves
that post (which is in the resulting store) with status `"posted"`. -/
theorem C2_status_monotonic_witness : p2.status = "posted" := by
  have hpres : ∀ pre suf, [Op.fire (_job_id 1)] = pre ++ suf →
      ∃ p ∈ (execOps pre st2).posts, p.id = 1 := by
    intro pre suf h
    cases pre with
    | nil => exact ⟨p2, by decide, by decide⟩
    | cons o pre' =>
      rw [List.cons_append] at h
      obtain ⟨h4, h2⟩ := (List.cons.injEq _ _ _ _).mp h
      obtain ⟨h3, -⟩ := List.append_eq_nil.mp h2.symm
      subst h3
      rw [← h4]
      exact ⟨p2, by decide, by decide⟩
  exact C2_status_monotonic [Op.fire (_job_id 1)] st2 1 (by decide) hpres
    p2 (by decide) (by decide)

/-- C3 (counterexample to the claim as stated), exhibiting both operations
that break the invariant. First: from the empty store, create a post, let
its task fire (status becomes `"posted"`, no live entry), then edit it —
the edit handler re-registers the job unconditionally, so the posted post
ends up with a live scheduler entry. Second: reconcile the well-formed,
invariant-satisfying state `st1`, whose scheduled post is overdue and
still has its persisted live job (the restart scenario) — the
immediate-publish branch calls `publish_post` without removing the stale
entry, so the now-posted post keeps a live scheduler entry. -/
theorem C3_scheduler_invariant_counterexample :
    (Inv (applyOp (.fire (_job_id 1))
      (applyOp (.create "a" "b" "x" 100 none false) ⟨[], [], [], []⟩)) ∧
     ¬ Inv (applyOp (.editOp 1 "a" "b" "x" 200 none false)
      (applyOp (.fire (_job_id 1))
        (applyOp (.create "a" "b" "x" 100 none false) ⟨[], [], [], []⟩)))) ∧
    (WfPosts st1 ∧ WfJobs st1 ∧ WfJobsU st1 ∧ Inv st1 ∧
     ¬ Inv (applyOp (.reconcileOp 0 (fun _ => false)) st1)) := by
  decide

/-- C3 (amended): in a well-formed state (distinct post ids, well-formed
job store) satisfying the invariant, the invariant still holds after
create, delete and task firing; after an edit provided the edited post is
still `"scheduled"`; and after the startup reconciliation provided the job
store starts out empty. Both restrictions are forced: the counterexample
shows an edit of a posted post and a reconciliation over a persisted live
job each violate the unrestricted claim. -/
theorem C3_scheduler_invariant_amended (s : St) (op : Op)
    (hP : WfPosts s) (hJ : WfJobs s) (hU : WfJobsU s) (hI : Inv s)
    (hG : GoodOp op s) : Inv (applyOp op s) := by
  cases op with
  | create t c pf stN img f => exact inv_create t c pf stN img f s hU hI
  | editOp i t c pf stN img f => exact inv_edit i t c pf stN img f s hU hI hG
  | deleteOp i => exact inv_delete i s hI
  | reconcileOp now f => exact inv_reconcile now f s hP hG
  | fire jid => exact inv_fire jid s hJ hU hI

/-- Witness for the amended C3: firing the live job of `st1`. -/
theorem C3_scheduler_invariant_amended_witness :
    Inv (applyOp (.fire (_job_id 1)) st1) :=
  C3_scheduler_invariant_amended st1 (.fire (_job_id 1))
    (by decide) (by decide) (by decide) (by decide) True.intro

/-- C4: the startup reconciliation routine coincides with the routine the
spec describes (process exactly the `"scheduled"` posts; normalize a naive
time by attaching the fixed IST offset; publish synchronously when the
normalized time has passed; otherwise register a task at that time under
the deterministic task id; a failed registration is caught and the loop
continues). In addition: a store with no `"scheduled"` post is left
untouched, and each branch of one processing step is characterized
explicitly. -/
theorem C4_reconciliation_behaviour (now : Int) (regFail : Nat → Bool) :
    (∀ s : St, reconcile now regFail s = reconcileSpec now regFail s) ∧
    (∀ s : St, (∀ p ∈ s.posts, p.status ≠ "scheduled") →
      reconcile now regFail s = s) ∧
    (∀ (s : St) (p : Post),
      (p.scheduled_time.normIST.instant ≤ now →
        reconcileStep now regFail s p = publish_post p.id s) ∧
      (¬ p.scheduled_time.normIST.instant ≤ now → regFail p.id = false →
        reconcileStep now regFail s p =
          { s with jobs := addJob ⟨_job_id p.id, p.scheduled_time.normIST, p.id⟩ s.jobs }) ∧
      (¬ p.scheduled_time.normIST.instant ≤ now → regFail p.id = true →
        reconcileStep now regFail s p = s)) := by
  refine ⟨fun s => ?_, fun s h => ?_, fun s p => ⟨fun h => ?_, fun h hf => ?_, fun h hf => ?_⟩⟩
  · rw [reconcile, reconcileSpec]
    exact reconcileGo_eq_spec now regFail _ s
  · rw [reconcile]
    have hnil : s.posts.filter (fun p => p.status == "scheduled") = [] := by
      rw [List.filter_eq_nil_iff]
      intro p hp
      simpa using h p hp
    rw [hnil]
    rfl
  · simp [reconcileStep, h]
  · simp [reconcileStep, h, hf]
  · simp [reconcileStep, h, hf]

/-- Witness for C4: the posted-only store `st2` is untouched, and the
overdue post `p1` (wall clock 100, IST) is published synchronously at
`now = 0` UTC. -/
theorem C4_reconciliation_behaviour_witness :
    reconcile 0 (fun _ => false) st2 = st2 ∧
    reconcileStep 0 (fun _ => false) st1 p1 = publish_post p1.id st1 :=
  ⟨(C4_reconciliation_behaviour 0 (fun _ => false)).2.1 st2 (by decide),
   ((C4_reconciliation_behaviour 0 (fun _ => false)).2.2 st1 p1).1 (by decide)⟩

/-- C5: every successful edit of an existing post re-registers its task
under the task id derived from the post id — the resulting job store is
exactly `addJob` of the entry at the new time, whatever the old time was —
and registering a job id any number of times leaves exactly one live entry
for it, the most recently registered one. -/
theorem C5_reregistration_replaces :
    (∀ (s : St) (i : Nat) (t c pf : String) (stN : Int) (img : Option String),
      (∃ p ∈ s.posts, p.id = i) →
      ∃ s', edit i t c pf stN img false s = .ok s' ∧
        s'.jobs = addJob ⟨_job_id i, ⟨stN, some istOffset⟩, i⟩ s.jobs) ∧
    (∀ (js regs : List Job) (j : Job),
      ((regs ++ [j]).foldl (fun a k => addJob k a) js).filter
        (fun k => k.jid == j.jid) = [j]) := by
  constructor
  · intro s i t c pf stN img hex
    obtain ⟨post, hfind⟩ := find?_isSome_of_mem hex
    refine ⟨_, edit_eq t c pf stN img false hfind, ?_⟩
    simp
  · intro js regs j
    exact foldl_addJob_last js regs j

/-- Witness for C5: editing the post of `st1` to a new time. -/
theorem C5_reregistration_replaces_witness :
    ∃ s', edit 1 "t" "c" "x" 200 none false st1 = .ok s' ∧
      s'.jobs = addJob ⟨_job_id 1, ⟨200, some istOffset⟩, 1⟩ st1.jobs :=
  C5_reregistration_replaces.1 st1 1 "t" "c" "x" 200 none ⟨p1, by decide, by decide⟩

/-- C6: when the post exists but no live task is registered under its job
id, the delete handler's cancellation step is a tolerated no-op — the
handler still returns successfully (no error propagates to the caller),
the job store is untouched and the record is deleted. -/
theorem C6_cancel_missing_job_tolerated (s : St) (i : Nat)
    (hex : ∃ p ∈ s.posts, p.id = i)
    (habs : ∀ k ∈ s.jobs, k.jid ≠ _job_id i) :
    ∃ s' tr, delete i s = .ok (s', tr) ∧ s'.jobs = s.jobs ∧
      ∀ p ∈ s'.posts, p.id ≠ i := by
  obtain ⟨post, hfind⟩ := find?_isSome_of_mem hex
  have hid : post.id = i := find?_id_eq hfind
  have hany : s.jobs.any (fun k => k.jid == _job_id post.id) = false := by
    rw [List.any_eq_false]
    intro k hk
    rw [hid]
    simpa using habs k hk
  refine ⟨_, _, delete_eq hfind, ?_, ?_⟩
  · show (match removeJob (_job_id post.id) s.jobs with
      | .ok js => js
      | .error _ => s.jobs) = s.jobs
    rw [removeJob, if_neg (by rw [hany]; simp)]
  · intro p hp
    have := (List.mem_filter.mp hp).2
    simpa using this

/-- Witness for C6: deleting the post of `st2`, whose job store is empty. -/
theorem C6_cancel_missing_job_tolerated_witness :
    ∃ s' tr, delete 1 st2 = .ok (s', tr) ∧ s'.jobs = st2.jobs ∧
      ∀ p ∈ s'.posts, p.id ≠ 1 :=
  C6_cancel_missing_job_tolerated st2 1 ⟨p2, by decide, by decide⟩ (by decide)

/-- C7: for every existing post the delete handler performs its effects in
the order: first the task-cancellation attempt, then (possibly) the removal
of the uploaded image file, and last the deletion of the Post record. -/
theorem C7_delete_effect_order (s : St) (i : Nat)
    (hex : ∃ p ∈ s.posts, p.id = i) :
    ∃ s' mid, delete i s =
      .ok (s', Act.cancelAttempt (_job_id i) :: (mid ++ [Act.deleteRecord i])) ∧
      ∀ a ∈ mid, ∃ fn, a = Act.removeFile fn := by
  obtain ⟨post, hfind⟩ := find?_isSome_of_mem hex
  have hid : post.id = i := find?_id_eq hfind
  have hdel := delete_eq hfind
  rw [hid] at hdel
  refine ⟨_, _, hdel, ?_⟩
  intro a ha
  cases himg : post.image_filename with
  | none => rw [himg] at ha; simp at ha
  | some fn =>
    rw [himg] at ha
    by_cases hmem : fn ∈ s.files
    · simp only [hmem, if_true, List.mem_singleton] at ha
      exact ⟨fn, ha⟩
    · simp [hmem] at ha

/-- Witness for C7: deleting the post of `st1`. -/
theorem C7_delete_effect_order_witness :
    ∃ s' mid, delete 1 st1 =
      .ok (s', Act.cancelAttempt (_job_id 1) :: (mid ++ [Act.deleteRecord 1])) ∧
      ∀ a ∈ mid, ∃ fn, a = Act.removeFile fn :=
  C7_delete_effect_order st1 1 ⟨p1, by decide, by decide⟩

/-- C8: when task registration fails after the record was committed, the
committed record is not rolled back — the new post is still stored with
status `"scheduled"`, the job store is untouched — and no error reaches
the requester: create (and likewise edit) still completes with a normal
result. -/
theorem C8_scheduling_failure_contained (s : St) (t c pf : String)
    (stN : Int) (img : Option String) :
    (∃ s', schedule t c pf stN img true s = .ok s' ∧ s'.jobs = s.jobs ∧
      (⟨freshId s.posts, t, c, pf, ⟨stN, some istOffset⟩, "scheduled", img⟩ : Post)
        ∈ s'.posts) ∧
    (∀ (i : Nat) (t2 c2 pf2 : String) (stN2 : Int) (img2 : Option String),
      (∃ p ∈ s.posts, p.id = i) →
      ∃ s', edit i t2 c2 pf2 stN2 img2 true s = .ok s' ∧ s'.jobs = s.jobs) := by
  constructor
  · refine ⟨_, schedule_eq t c pf stN img true s, ?_, ?_⟩
    · simp
    · simp
  · intro i t2 c2 pf2 stN2 img2 hex
    obtain ⟨post, hfind⟩ := find?_isSome_of_mem hex
    refine ⟨_, edit_eq t2 c2 pf2 stN2 img2 true hfind, ?_⟩
    simp

/-- Witness for C8: a failed registration on create over `st1`, and on an
edit of its existing post. -/
theorem C8_scheduling_failure_contained_witness :
    (∃ s', schedule "t" "c" "x" 300 none true st1 = .ok s' ∧
      s'.jobs = st1.jobs ∧
      (⟨freshId st1.posts, "t", "c", "x", ⟨300, some istOffset⟩, "scheduled", none⟩ : Post)
        ∈ s'.posts) ∧
    (∃ s', edit 1 "t" "c" "x" 300 none true st1 = .ok s' ∧ s'.jobs = st1.jobs) :=
  ⟨(C8_scheduling_failure_contained st1 "t" "c" "x" 300 none).1,
   (C8_scheduling_failure_contained st1 "t" "c" "x" 300 none).2 1 "t" "c" "x" 300
     none ⟨p1, by decide, by decide⟩⟩

/-- C9: the list-posts operation returns every stored post, ordered by
scheduled time: the result is a permutation of the store and adjacent
posts are consistently ordered by their `scheduled_time` (descending, as
`Post.query.order_by(Post.scheduled_time.desc())` sorts). -/
theorem C9_index_ordered (s : St) :
    (index s).Perm s.posts ∧
    (index s).Pairwise
      (fun a b => b.scheduled_time.naive ≤ a.scheduled_time.naive) := by
  constructor
  · exact List.mergeSort_perm s.posts _
  · have htrans : ∀ (a b c : Post),
        decide (b.scheduled_time.naive ≤ a.scheduled_time.naive) = true →
        decide (c.scheduled_time.naive ≤ b.scheduled_time.naive) = true →
        decide (c.scheduled_time.naive ≤ a.scheduled_time.naive) = true := by
      intro a b c hab hbc
      simp only [decide_eq_true_eq] at *
      omega
    have htotal : ∀ (a b : Post),
        (decide (b.scheduled_time.naive ≤ a.scheduled_time.naive) ||
         decide (a.scheduled_time.naive ≤ b.scheduled_time.naive)) = true := by
      intro a b
      simp only [Bool.or_eq_true, decide_eq_true_eq]
      omega
    have h := List.sorted_mergeSort htrans htotal s.posts
    exact h.imp (fun hab => by simpa using hab)

/-- C10: the frame property of `publish_post` — the job store, the files
and every non-targeted post are unchanged; the targeted post changes at
most its status field (to `"posted"`); and on either early-return branch
(post absent, or status not `"scheduled"`) the entire state is unchanged. -/
theorem C10_publish_frame (s : St) (post_id : Nat) :
    (publish_post post_id s).jobs = s.jobs ∧
    (publish_post post_id s).files = s.files ∧
    List.Forall₂ (fun p q => q = p ∨
      (p.id = post_id ∧ q = { p with status := "posted" }))
      s.posts (publish_post post_id s).posts ∧
    (s.posts.find? (fun p => p.id == post_id) = none →
      publish_post post_id s = s) ∧
    (∀ post, s.posts.find? (fun p => p.id == post_id) = some post →
      post.status ≠ "scheduled" → publish_post post_id s = s) := by
  refine ⟨publish_jobs post_id s, publish_files post_id s, ?_, fun h => ?_, fun post h hst => ?_⟩
  · rcases publish_posts_cases post_id s with hc | hc <;> rw [hc]
    · exact List.forall₂_same.mpr (fun p _ => Or.inl rfl)
    · rw [setPosted, List.forall₂_map_right_iff]
      refine List.forall₂_same.mpr (fun p _ => ?_)
      by_cases hpid : p.id = post_id
      · right
        exact ⟨hpid, by simp [hpid]⟩
      · left
        simp [hpid]
  · simp [publish_post, h]
  · simp [publish_post, h, hst]

/-- Witness for C10: publishing the already-posted post of `st2` is a
complete no-op. -/
theorem C10_publish_frame_witness : publish_post 1 st2 = st2 :=
  (C10_publish_frame st2 1).2.2.2.2 p2 (by decide) (by decide)

end SocialScheduler
